import Mathlib

/-!
Verification of a persistent (copy-on-write) trie with a multi-version store,
modelled from `src/trie/src.hpp` (namespace `sjtu`).

The C++ code works on a graph of reference-counted `TrieNode` objects.  To keep
the aliasing structure observable (the central spec claims are about sharing and
non-mutation of published nodes), the embedding uses an explicit heap: a list of
nodes addressed by their index.  `shared_ptr<TrieNode>` becomes a `Nat` address,
node allocation appends to the heap, and the in-place mutations the C++ code
performs on freshly cloned nodes become `List.set` writes at their addresses.

Type-erased values (`TrieNodeWithValue<T>` with `std::shared_ptr<T> value_`) are
modelled as a tag/payload pair `TVal`: the tag plays the role of the runtime
type `T`, and `Trie::Get<T>`'s `dynamic_pointer_cast` check becomes an equality
test on the tag.
-/

namespace Sjtu

/-- A stored value: `tag` stands for the runtime type `T` of
`TrieNodeWithValue<T>`, `data` for the payload. -/
structure TVal where
  tag : Nat
  data : Nat
deriving DecidableEq

/-- A trie node, covering both C++ classes `TrieNode` and `TrieNodeWithValue`:
`children` is the `std::map<char, std::shared_ptr<TrieNode>> children_`
(addresses instead of pointers), `is_value_node` is the `is_value_node_` flag,
and `value` is `none` for a plain `TrieNode` and `some v` for a
`TrieNodeWithValue` holding `v`. -/
structure TrieNode where
  children : List (Char × Nat)
  is_value_node : Bool
  value : Option TVal
deriving DecidableEq

/-- A default-constructed `TrieNode()`: no children, not a value node. -/
def TrieNode.plain : TrieNode := ⟨[], false, none⟩

/-- The heap of nodes; an address is an index into this list. -/
abbrev Heap := List TrieNode

/-- Dereference an address.  Out-of-range reads return an inert plain node;
they never occur on the executions the theorems are about. -/
def readN (h : Heap) (a : Nat) : TrieNode := (h[a]?).getD TrieNode.plain

/-- In-place update of the node stored at address `a`
(the C++ code only ever does this to nodes cloned within the same operation). -/
def writeN (h : Heap) (a : Nat) (nd : TrieNode) : Heap := h.set a nd

/-- `children_.find(c)`: look a character up in a node's child map. -/
def lookupC (c : Char) : List (Char × Nat) → Option Nat
  | [] => none
  | p :: rest => if p.1 = c then some p.2 else lookupC c rest

/-- `children_[c] = a`: bind character `c` to address `a` in a child map,
replacing any previous binding. -/
def insertC (c : Char) (a : Nat) : List (Char × Nat) → List (Char × Nat)
  | [] => [(c, a)]
  | p :: rest => if p.1 = c then (c, a) :: rest else p :: insertC c a rest

/-- The lookup loop of `Trie::Get`: starting from address `a`, follow one child
edge per character while edges exist.  Returns the node reached and the part of
the key that could not be consumed (`[]` iff the walk consumed the whole key).
This is the `while (i < key.size() && ... find(key[i]) != end)` loop. -/
def walk (h : Heap) (a : Nat) : List Char → Nat × List Char
  | [] => (a, [])
  | c :: rest =>
    match lookupC c (readN h a).children with
    | none => (a, c :: rest)
    | some b => walk h b rest

/-- The tail of `Trie::Get` after the walk: the landing node yields a value
iff `is_value_node_` is set, the node actually is a `TrieNodeWithValue` with a
non-null value (the `dynamic_pointer_cast` / `!target->value_` checks), and its
runtime tag equals the requested one. -/
def nodeCheck (h : Heap) (a : Nat) (T : Nat) : Option Nat :=
  if (readN h a).is_value_node then
    match (readN h a).value with
    | some v => if v.tag = T then some v.data else none
    | none => none
  else none

/-- `Trie::Get<T>(key)` from a root address: walk the key, then examine the
landing node.  If the key was not fully consumed the result is `nullptr`. -/
def getFrom (h : Heap) (a : Nat) (T : Nat) (key : List Char) : Option Nat :=
  match walk h a key with
  | (cur, []) => nodeCheck h cur T
  | (_, _ :: _) => none

/-- `Trie::Get<T>(key)`: a `Trie` whose `root_` is `nullptr` (modelled as
`none`) yields `nullptr` for every key. -/
def trieGet (h : Heap) (root : Option Nat) (T : Nat) (key : List Char) : Option Nat :=
  match root with
  | none => none
  | some r => getFrom h r T key

/-- The preamble shared by `Trie::Put` and `Trie::Remove`: clone the root
(`root_->Clone()`), or create an empty `TrieNode` if the trie is empty
(`Put` only).  Returns the extended heap and the new root's address. -/
def cloneRoot (h : Heap) (root : Option Nat) : Heap × Nat :=
  match root with
  | none => (h ++ [TrieNode.plain], h.length)
  | some r => (h ++ [readN h r], h.length)

/-- The `for (i = 0; i < key.size() - 1; ++i)` loop of `Trie::Put`, processing
all key characters except the last.  `ex` is the local `exist` flag: while it
holds and the next edge exists, the child is cloned in place
(`children_[key[i]] = children_[key[i]]->Clone()`); otherwise `exist` is
cleared and a fresh empty `TrieNode` is linked in.  `cur` is the `current`
pointer; the write into `current->children_` is a heap write at `cur`. -/
def putLoop (h : Heap) (cur : Nat) (ex : Bool) : List Char → Heap × Nat × Bool
  | [] => (h, cur, ex)
  | c :: rest =>
    match lookupC c (readN h cur).children, ex with
    | some a, true =>
      putLoop
        (writeN (h ++ [readN h a]) cur
          ⟨insertC c h.length (readN h cur).children,
            (readN h cur).is_value_node, (readN h cur).value⟩)
        h.length true rest
    | _, _ =>
      putLoop
        (writeN (h ++ [TrieNode.plain]) cur
          ⟨insertC c h.length (readN h cur).children,
            (readN h cur).is_value_node, (readN h cur).value⟩)
        h.length false rest

/-- The last step of `Trie::Put` at `key.back()`: if `exist` still holds and
the last edge is present, the new `TrieNodeWithValue` keeps the existing
child's children; otherwise it is created childless.  Either way it carries the
new value and is linked into `cur`'s child map. -/
def putFinish (h : Heap) (cur : Nat) (ex : Bool) (c : Char) (v : TVal) : Heap :=
  match lookupC c (readN h cur).children, ex with
  | some a, true =>
    writeN (h ++ [(⟨(readN h a).children, true, some v⟩ : TrieNode)]) cur
      ⟨insertC c h.length (readN h cur).children,
        (readN h cur).is_value_node, (readN h cur).value⟩
  | _, _ =>
    writeN (h ++ [(⟨[], true, some v⟩ : TrieNode)]) cur
      ⟨insertC c h.length (readN h cur).children,
        (readN h cur).is_value_node, (readN h cur).value⟩

/-- `Trie::Put(key, value)`: clone the root, walk/copy the path of all but the
last character, then install the value node.  Returns the new heap and the new
root's address.  The source requires a non-empty key (spec section 9: an empty
key is outside the design's precondition); for `[]` the model just returns the
cloned root untouched. -/
def triePut (h : Heap) (root : Option Nat) (key : List Char) (v : TVal) : Heap × Nat :=
  match key.getLast? with
  | none => cloneRoot h root
  | some c =>
    let p := cloneRoot h root
    let q := putLoop p.1 p.2 true key.dropLast
    (putFinish q.1 q.2.1 q.2.2 c v, p.2)

/-- The `for (i = 0; i < key.size() - 1; ++i)` loop of `Trie::Remove`: clone
each node along the path; if an edge is missing, the whole operation aborts
(`return *this`), modelled as `none`. -/
def removeLoop (h : Heap) (cur : Nat) : List Char → Option (Heap × Nat)
  | [] => some (h, cur)
  | c :: rest =>
    match lookupC c (readN h cur).children with
    | none => none
    | some a =>
      removeLoop
        (writeN (h ++ [readN h a]) cur
          ⟨insertC c h.length (readN h cur).children,
            (readN h cur).is_value_node, (readN h cur).value⟩)
        h.length rest

/-- The last step of `Trie::Remove` at `key.back()`: if the edge is missing,
abort (`return *this`); otherwise replace the child by a plain `TrieNode`
keeping the same children (note: the source does not check that the replaced
node is a value node). -/
def removeFinish (h : Heap) (cur : Nat) (c : Char) : Option Heap :=
  match lookupC c (readN h cur).children with
  | none => none
  | some a =>
    some
      (writeN (h ++ [(⟨(readN h a).children, false, none⟩ : TrieNode)]) cur
        ⟨insertC c h.length (readN h cur).children,
          (readN h cur).is_value_node, (readN h cur).value⟩)

/-- `Trie::Remove(key)`: returns the heap, the resulting root, and the
`change` flag of the returned `Trie` (set only on the success path,
`Trie(newroot, true)`).  On every abort path the original trie is returned and
the clones made so far are discarded, so the original heap is kept.  As with
`Put`, an empty key is outside the source's precondition. -/
def trieRemove (h : Heap) (root : Option Nat) (key : List Char) : Heap × Option Nat × Bool :=
  match root with
  | none => (h, root, false)
  | some r =>
    match key.getLast? with
    | none => (h, root, false)
    | some c =>
      match removeLoop (h ++ [readN h r]) h.length key.dropLast with
      | none => (h, root, false)
      | some q =>
        match removeFinish q.1 q.2 c with
        | none => (h, root, false)
        | some hf => (hf, some h.length, true)

/-- `TrieStore`: the heap together with the snapshot vector `snapshots_`
(each snapshot is a root address; the default-constructed first snapshot has a
null root). -/
structure TrieStore where
  heap : Heap
  snapshots : List (Option Nat)

/-- A freshly constructed `TrieStore`: `std::vector<Trie> snapshots_{1}`,
one empty trie. -/
def TrieStore.init : TrieStore := ⟨[], [none]⟩

/-- `TrieStore::get_version()`: `snapshots_.size() - 1`. -/
def TrieStore.get_version (s : TrieStore) : Nat := s.snapshots.length - 1

/-- `TrieStore::Get<T>(key, version = -1)`: the `-1` "latest" sentinel is
modelled as `none`.  A sentinel request reads `snapshots_.size() - 1`; an
explicit version at or beyond `snapshots_.size()` yields `nullopt`.  The
`ValueGuard` only hands back the value, so the model returns the value. -/
def TrieStore.Get (s : TrieStore) (key : List Char) (version : Option Nat) (T : Nat) :
    Option Nat :=
  match version with
  | none => trieGet s.heap ((s.snapshots[s.snapshots.length - 1]?).getD none) T key
  | some v =>
    if v < s.snapshots.length then
      trieGet s.heap ((s.snapshots[v]?).getD none) T key
    else none

/-- `TrieStore::Put(key, value)`: apply `Trie::Put` to `snapshots_.back()`,
push the result, and return `snapshots_.size() - 1` afterwards. -/
def TrieStore.Put (s : TrieStore) (key : List Char) (v : TVal) : TrieStore × Nat :=
  let p := triePut s.heap ((s.snapshots.getLast?).getD none) key v
  (⟨p.1, s.snapshots ++ [some p.2]⟩, (s.snapshots ++ [some p.2]).length - 1)

/-- `TrieStore::Remove(key)`: apply `Trie::Remove` to `snapshots_.back()`;
push the result only if its `change` flag is set (`newtrie.is_change()`), and
return `snapshots_.size() - 1` afterwards. -/
def TrieStore.Remove (s : TrieStore) (key : List Char) : TrieStore × Nat :=
  let p := trieRemove s.heap ((s.snapshots.getLast?).getD none) key
  if p.2.2 then
    (⟨p.1, s.snapshots ++ [p.2.1]⟩, (s.snapshots ++ [p.2.1]).length - 1)
  else (s, s.snapshots.length - 1)

/-- Heap well-formedness: every child address stored in any node is a valid
address.  Every heap the store builds from `init` satisfies this. -/
def wfHeap (h : Heap) : Bool :=
  h.all (fun nd => nd.children.all (fun p => p.2 < h.length))

/-- Propositional form of `wfHeap`, convenient in proofs. -/
def HClosed (h : Heap) : Prop :=
  ∀ a, a < h.length → ∀ p ∈ (readN h a).children, p.2 < h.length

/-- Store well-formedness: a well-formed heap, at least one snapshot (the
constructor installs one and nothing removes snapshots), and every snapshot
root a valid address. -/
def storeWF (s : TrieStore) : Bool :=
  wfHeap s.heap && !s.snapshots.isEmpty &&
    s.snapshots.all (fun r =>
      match r with
      | none => true
      | some a => a < s.heap.length)

/-- The tries reachable from the empty trie by `Put` / `Remove` with non-empty
keys (together with the heap they live in).  The base case also covers the
default-constructed `Trie()` over any ambient heap. -/
inductive Built : Heap → Option Nat → Prop
  | base (h : Heap) : Built h none
  | put (h : Heap) (root : Option Nat) (key : List Char) (v : TVal) :
      Built h root → key ≠ [] →
      Built (triePut h root key v).1 (some (triePut h root key v).2)
  | remove (h : Heap) (root : Option Nat) (key : List Char) :
      Built h root → key ≠ [] →
      Built (trieRemove h root key).1 (trieRemove h root key).2.1

/-- Transcription of the spec's description of `Get` (section 4.2): walk one
edge per character, not-found on a missing edge or empty root; once the key is
consumed, a value is returned exactly when the landing node is terminal and its
stored value's runtime type matches the requested one. -/
def specGetNode (h : Heap) (T : Nat) (a : Nat) : List Char → Option Nat
  | [] =>
    match (readN h a).value with
    | some v =>
      if (readN h a).is_value_node ∧ v.tag = T then some v.data else none
    | none => none
  | c :: rest =>
    match lookupC c (readN h a).children with
    | none => none
    | some b => specGetNode h T b rest

/-- Spec-side `Get` over an optional root (see `specGetNode`). -/
def specGet (h : Heap) (root : Option Nat) (T : Nat) (key : List Char) : Option Nat :=
  match root with
  | none => none
  | some a => specGetNode h T a key

/-! ## Basic lemmas about child maps and the heap -/

lemma lookupC_insertC_self (c : Char) (a : Nat) (l : List (Char × Nat)) :
    lookupC c (insertC c a l) = some a := by
  induction l with
  | nil => simp [insertC, lookupC]
  | cons p rest ih =>
    by_cases hp : p.1 = c
    · simp [insertC, hp, lookupC]
    · simp [insertC, hp, lookupC, ih]

lemma lookupC_insertC_ne (c c' : Char) (hne : c' ≠ c) (a : Nat) (l : List (Char × Nat)) :
    lookupC c' (insertC c a l) = lookupC c' l := by
  have hcc : c ≠ c' := Ne.symm hne
  induction l with
  | nil => simp [insertC, lookupC, hcc]
  | cons p rest ih =>
    by_cases hp : p.1 = c
    · subst hp
      simp [insertC, lookupC, hcc]
    · simp [insertC, hp, lookupC, ih]

lemma mem_insertC {p : Char × Nat} {c : Char} {a : Nat} {l : List (Char × Nat)}
    (hp : p ∈ insertC c a l) : p = (c, a) ∨ p ∈ l := by
  induction l with
  | nil => simpa [insertC] using hp
  | cons q rest ih =>
    by_cases hq : q.1 = c
    · simp only [insertC, if_pos hq, List.mem_cons] at hp
      rcases hp with hp | hp
      · exact Or.inl hp
      · exact Or.inr (List.mem_cons_of_mem _ hp)
    · simp only [insertC, if_neg hq, List.mem_cons] at hp
      rcases hp with hp | hp
      · exact Or.inr (hp ▸ List.mem_cons_self _ _)
      · rcases ih hp with hp | hp
        · exact Or.inl hp
        · exact Or.inr (List.mem_cons_of_mem _ hp)

lemma lookupC_mem {c : Char} {l : List (Char × Nat)} {a : Nat}
    (h : lookupC c l = some a) : (c, a) ∈ l := by
  induction l with
  | nil => simp [lookupC] at h
  | cons p rest ih =>
    by_cases hp : p.1 = c
    · simp only [lookupC, if_pos hp] at h
      cases h
      have hcp : (c, p.2) = p := by rw [← hp]
      rw [hcp]
      exact List.mem_cons_self _ _
    · simp only [lookupC, if_neg hp] at h
      exact List.mem_cons_of_mem _ (ih h)

lemma readN_append_lt {h : Heap} {a : Nat} (l : List TrieNode) (ha : a < h.length) :
    readN (h ++ l) a = readN h a := by
  simp [readN, List.getElem?_append, ha]

lemma readN_concat_len (h : Heap) (nd : TrieNode) :
    readN (h ++ [nd]) h.length = nd := by
  simp [readN, List.getElem?_concat_length]

lemma readN_writeN_ne {h : Heap} {a b : Nat} (nd : TrieNode) (hne : a ≠ b) :
    readN (writeN h b nd) a = readN h a := by
  simp [readN, writeN, List.getElem?_set_ne (fun hba => hne (hba.symm))]

lemma readN_writeN_self {h : Heap} {b : Nat} (nd : TrieNode) (hb : b < h.length) :
    readN (writeN h b nd) b = nd := by
  simp [readN, writeN, List.getElem?_set_self hb]

lemma length_writeN (h : Heap) (b : Nat) (nd : TrieNode) :
    (writeN h b nd).length = h.length := by
  simp [writeN]

lemma readN_eq_of_agree {h h' : Heap} {n a : Nat}
    (hag : ∀ x, x < n → h'[x]? = h[x]?) (ha : a < n) :
    readN h' a = readN h a := by
  simp [readN, hag a ha]

lemma wfHeap_closed {h : Heap} (hwf : wfHeap h = true) : HClosed h := by
  intro a ha p hp
  have hga : h[a]? = some h[a] := List.getElem?_eq_getElem ha
  have hra : readN h a = h[a] := by simp [readN, hga]
  have hmem : h[a] ∈ h := List.getElem_mem ha
  have h1 := List.all_eq_true.mp hwf _ hmem
  have h2 := List.all_eq_true.mp h1 p (by rwa [hra] at hp)
  simpa using h2

/-! ## Lemmas about `walk` and `getFrom` -/

lemma walk_nil (h : Heap) (a : Nat) : walk h a [] = (a, []) := rfl

lemma getFrom_nil (h : Heap) (a : Nat) (T : Nat) : getFrom h a T [] = nodeCheck h a T := rfl

lemma getFrom_cons (h : Heap) (a : Nat) (T : Nat) (c : Char) (rest : List Char) :
    getFrom h a T (c :: rest) =
      match lookupC c (readN h a).children with
      | none => none
      | some b => getFrom h b T rest := by
  cases hl : lookupC c (readN h a).children with
  | none => simp [getFrom, walk, hl]
  | some b => simp [getFrom, walk, hl]

lemma walk_append (h : Heap) (a : Nat) (xs ys : List Char) :
    walk h a (xs ++ ys) =
      (if (walk h a xs).2 = [] then walk h (walk h a xs).1 ys
       else ((walk h a xs).1, (walk h a xs).2 ++ ys)) := by
  induction xs generalizing a with
  | nil => simp [walk]
  | cons c rest ih =>
    cases hl : lookupC c (readN h a).children with
    | none => simp [walk, hl]
    | some b => simpa [walk, hl] using ih b

lemma getFrom_append {h : Heap} {a b : Nat} {xs : List Char}
    (hw : walk h a xs = (b, [])) (T : Nat) (ys : List Char) :
    getFrom h a T (xs ++ ys) = getFrom h b T ys := by
  have hwa := walk_append h a xs ys
  rw [hw] at hwa
  simp only at hwa
  simp only [getFrom, hwa]
  rfl

lemma getFrom_cons_none {h : Heap} {a : Nat} {T : Nat} {c : Char} {rest : List Char}
    (hl : lookupC c (readN h a).children = none) :
    getFrom h a T (c :: rest) = none := by
  rw [getFrom_cons, hl]

lemma getFrom_cons_some {h : Heap} {a b : Nat} {T : Nat} {c : Char} {rest : List Char}
    (hl : lookupC c (readN h a).children = some b) :
    getFrom h a T (c :: rest) = getFrom h b T rest := by
  rw [getFrom_cons, hl]

lemma nodeCheck_congr {h1 h2 : Heap} {a1 a2 : Nat} (T : Nat)
    (hiv : (readN h1 a1).is_value_node = (readN h2 a2).is_value_node)
    (hv : (readN h1 a1).value = (readN h2 a2).value) :
    nodeCheck h1 a1 T = nodeCheck h2 a2 T := by
  simp [nodeCheck, hiv, hv]

lemma walk_lt_of_closed {h : Heap} (hc : HClosed h) :
    ∀ (ks : List Char) (a : Nat), a < h.length → (walk h a ks).1 < h.length := by
  intro ks
  induction ks with
  | nil => intro a ha; simpa [walk] using ha
  | cons c rest ih =>
    intro a ha
    cases hl : lookupC c (readN h a).children with
    | none => simpa [walk, hl] using ha
    | some b =>
      have hb : b < h.length := hc a ha _ (lookupC_mem hl)
      simpa [walk, hl] using ih b hb

/-- Reading through a heap that agrees with `h` on all of `h`'s addresses gives
the same lookup results, provided `h` is closed: `Get` only ever touches
addresses below `h.length`. -/
lemma getFrom_eq_of_agree {h hf : Heap} (hc : HClosed h)
    (hag : ∀ x, x < h.length → hf[x]? = h[x]?) :
    ∀ (k : List Char) (b : Nat), b < h.length → ∀ T, getFrom hf b T k = getFrom h b T k := by
  intro k
  induction k with
  | nil =>
    intro b hb T
    have hr : readN hf b = readN h b := readN_eq_of_agree hag hb
    simp [getFrom_nil, nodeCheck, hr]
  | cons c rest ih =>
    intro b hb T
    have hr : readN hf b = readN h b := readN_eq_of_agree hag hb
    rw [getFrom_cons, getFrom_cons, hr]
    cases hl : lookupC c (readN h b).children with
    | none => rfl
    | some a =>
      have ha : a < h.length := hc b hb _ (lookupC_mem hl)
      exact ih a ha T

/-! ## The heap after one path-copy step

Each loop iteration of `Put` / `Remove` appends one node `nd` (a clone or a
fresh plain node) and redirects one child edge of the current node `cur` by
rewriting it to `nw`.  These lemmas describe the resulting heap. -/

lemma length_step (h : Heap) (cur : Nat) (nd nw : TrieNode) :
    (writeN (h ++ [nd]) cur nw).length = h.length + 1 := by simp [writeN]

lemma readN_step_cur {h : Heap} {cur : Nat} (nd nw : TrieNode) (hcur : cur < h.length) :
    readN (writeN (h ++ [nd]) cur nw) cur = nw :=
  readN_writeN_self nw (by simp; omega)

lemma readN_step_new {h : Heap} {cur : Nat} (nd nw : TrieNode) (hcur : cur < h.length) :
    readN (writeN (h ++ [nd]) cur nw) h.length = nd := by
  rw [readN_writeN_ne nw (by omega), readN_concat_len]

lemma readN_step_old {h : Heap} {cur x : Nat} (nd nw : TrieNode)
    (hx : x < h.length) (hne : x ≠ cur) :
    readN (writeN (h ++ [nd]) cur nw) x = readN h x := by
  rw [readN_writeN_ne nw hne, readN_append_lt _ hx]

lemma get_step_old {h : Heap} {cur x : Nat} (nd nw : TrieNode)
    (hx : x < h.length) (hne : x ≠ cur) :
    (writeN (h ++ [nd]) cur nw)[x]? = h[x]? := by
  simp [writeN, List.getElem?_set_ne (fun hh => hne hh.symm), List.getElem?_append, hx]

lemma get_step_cur {h : Heap} {cur : Nat} (nd nw : TrieNode) (hcur : cur < h.length) :
    (writeN (h ++ [nd]) cur nw)[cur]? = some nw := by
  have hcl : cur < (h ++ [nd]).length := by simp; omega
  simp [writeN, List.getElem?_set_self hcl]

/-! ## Lemmas about `putLoop` -/

lemma putLoop_bounds (ks : List Char) (h : Heap) (cur : Nat) (ex : Bool) :
    cur < h.length →
    h.length ≤ (putLoop h cur ex ks).1.length ∧
    cur ≤ (putLoop h cur ex ks).2.1 ∧
    (putLoop h cur ex ks).2.1 < (putLoop h cur ex ks).1.length ∧
    (∀ x, x < h.length → x ≠ cur → (putLoop h cur ex ks).1[x]? = h[x]?) := by
  induction h, cur, ex, ks using putLoop.induct with
  | case1 h cur ex =>
    intro hcur
    exact ⟨Nat.le_refl _, Nat.le_refl _, hcur, fun x _ _ => rfl⟩
  | case2 h cur c rest a hl ih =>
    intro hcur
    have hred : putLoop h cur true (c :: rest) =
        putLoop (writeN (h ++ [readN h a]) cur
          ⟨insertC c h.length (readN h cur).children,
            (readN h cur).is_value_node, (readN h cur).value⟩) h.length true rest := by
      simp [putLoop, hl]
    rw [hred]
    obtain ⟨ih1, ih2, ih3, ih4⟩ := ih (by rw [length_step]; omega)
    rw [length_step] at ih1
    refine ⟨by omega, by omega, ih3, ?_⟩
    intro x hx hxcur
    rw [ih4 x (by rw [length_step]; omega) (by omega)]
    exact get_step_old _ _ hx hxcur
  | case3 h cur ex c rest hna ih =>
    intro hcur
    have hred : putLoop h cur ex (c :: rest) =
        putLoop (writeN (h ++ [TrieNode.plain]) cur
          ⟨insertC c h.length (readN h cur).children,
            (readN h cur).is_value_node, (readN h cur).value⟩) h.length false rest := by
      cases hl : lookupC c (readN h cur).children with
      | none => cases ex <;> simp [putLoop, hl]
      | some a =>
        cases ex with
        | false => simp [putLoop, hl]
        | true => exact (hna a hl rfl).elim
    rw [hred]
    obtain ⟨ih1, ih2, ih3, ih4⟩ := ih (by rw [length_step]; omega)
    rw [length_step] at ih1
    refine ⟨by omega, by omega, ih3, ?_⟩
    intro x hx hxcur
    rw [ih4 x (by rw [length_step]; omega) (by omega)]
    exact get_step_old _ _ hx hxcur

/-- A heap `hf` that agrees with the loop's final heap everywhere except at the
loop's final node reads the redirected node `nw` back at `cur`. -/
lemma step_read_through {h : Heap} {cur : Nat} (nd nw : TrieNode) (rest : List Char)
    (ex' : Bool) (hf : Heap) (hcur : cur < h.length)
    (hag : ∀ x, x < (putLoop (writeN (h ++ [nd]) cur nw) h.length ex' rest).1.length →
        x ≠ (putLoop (writeN (h ++ [nd]) cur nw) h.length ex' rest).2.1 →
        hf[x]? = (putLoop (writeN (h ++ [nd]) cur nw) h.length ex' rest).1[x]?) :
    readN hf cur = nw := by
  obtain ⟨hb1, hb2, hb3, hb4⟩ :=
    putLoop_bounds rest (writeN (h ++ [nd]) cur nw) h.length ex' (by rw [length_step]; omega)
  rw [length_step] at hb1
  have h1 := hag cur (by omega) (by omega)
  rw [hb4 cur (by rw [length_step]; omega) (by omega), get_step_cur nd nw hcur] at h1
  simp [readN, h1]

lemma putLoop_walk (ks : List Char) (h : Heap) (cur : Nat) (ex : Bool) :
    cur < h.length →
    ∀ hf : Heap,
      (∀ x, x < (putLoop h cur ex ks).1.length → x ≠ (putLoop h cur ex ks).2.1 →
        hf[x]? = (putLoop h cur ex ks).1[x]?) →
      walk hf cur ks = ((putLoop h cur ex ks).2.1, []) := by
  induction h, cur, ex, ks using putLoop.induct with
  | case1 h cur ex => intro _ hf _; rfl
  | case2 h cur c rest a hl ih =>
    intro hcur hf hag
    have hred : putLoop h cur true (c :: rest) =
        putLoop (writeN (h ++ [readN h a]) cur
          ⟨insertC c h.length (readN h cur).children,
            (readN h cur).is_value_node, (readN h cur).value⟩) h.length true rest := by
      simp [putLoop, hl]
    rw [hred] at hag ⊢
    have hcur' := step_read_through (readN h a)
      (⟨insertC c h.length (readN h cur).children,
        (readN h cur).is_value_node, (readN h cur).value⟩ : TrieNode) rest true hf hcur hag
    have hw : walk hf cur (c :: rest) = walk hf h.length rest := by
      simp only [walk, hcur', lookupC_insertC_self]
    rw [hw]
    exact ih (by rw [length_step]; omega) hf hag
  | case3 h cur ex c rest hna ih =>
    intro hcur hf hag
    have hred : putLoop h cur ex (c :: rest) =
        putLoop (writeN (h ++ [TrieNode.plain]) cur
          ⟨insertC c h.length (readN h cur).children,
            (readN h cur).is_value_node, (readN h cur).value⟩) h.length false rest := by
      cases hl : lookupC c (readN h cur).children with
      | none => cases ex <;> simp [putLoop, hl]
      | some a =>
        cases ex with
        | false => simp [putLoop, hl]
        | true => exact (hna a hl rfl).elim
    rw [hred] at hag ⊢
    have hcur' := step_read_through TrieNode.plain
      (⟨insertC c h.length (readN h cur).children,
        (readN h cur).is_value_node, (readN h cur).value⟩ : TrieNode) rest false hf hcur hag
    have hw : walk hf cur (c :: rest) = walk hf h.length rest := by
      simp only [walk, hcur', lookupC_insertC_self]
    rw [hw]
    exact ih (by rw [length_step]; omega) hf hag

lemma putLoop_flags (ks : List Char) (h : Heap) (cur : Nat) (ex : Bool) :
    cur < h.length →
    ∀ x, x < h.length →
      (readN (putLoop h cur ex ks).1 x).is_value_node = (readN h x).is_value_node := by
  induction h, cur, ex, ks using putLoop.induct with
  | case1 h cur ex => intro _ x _; rfl
  | case2 h cur c rest a hl ih =>
    intro hcur x hx
    have hred : putLoop h cur true (c :: rest) =
        putLoop (writeN (h ++ [readN h a]) cur
          ⟨insertC c h.length (readN h cur).children,
            (readN h cur).is_value_node, (readN h cur).value⟩) h.length true rest := by
      simp [putLoop, hl]
    rw [hred]
    rw [ih (by rw [length_step]; omega) x (by rw [length_step]; omega)]
    by_cases hxc : x = cur
    · subst hxc; rw [readN_step_cur _ _ hcur]
    · rw [readN_step_old _ _ hx hxc]
  | case3 h cur ex c rest hna ih =>
    intro hcur x hx
    have hred : putLoop h cur ex (c :: rest) =
        putLoop (writeN (h ++ [TrieNode.plain]) cur
          ⟨insertC c h.length (readN h cur).children,
            (readN h cur).is_value_node, (readN h cur).value⟩) h.length false rest := by
      cases hl : lookupC c (readN h cur).children with
      | none => cases ex <;> simp [putLoop, hl]
      | some a =>
        cases ex with
        | false => simp [putLoop, hl]
        | true => exact (hna a hl rfl).elim
    rw [hred]
    rw [ih (by rw [length_step]; omega) x (by rw [length_step]; omega)]
    by_cases hxc : x = cur
    · subst hxc; rw [readN_step_cur _ _ hcur]
    · rw [readN_step_old _ _ hx hxc]

lemma putLoop_closed (ks : List Char) (h : Heap) (cur : Nat) (ex : Bool) :
    HClosed h → cur < h.length → HClosed (putLoop h cur ex ks).1 := by
  induction h, cur, ex, ks using putLoop.induct with
  | case1 h cur ex => intro hc _; exact hc
  | case2 h cur c rest a hl ih =>
    intro hc hcur
    have hred : putLoop h cur true (c :: rest) =
        putLoop (writeN (h ++ [readN h a]) cur
          ⟨insertC c h.length (readN h cur).children,
            (readN h cur).is_value_node, (readN h cur).value⟩) h.length true rest := by
      simp [putLoop, hl]
    rw [hred]
    have ha : a < h.length := hc cur hcur _ (lookupC_mem hl)
    refine ih ?_ (by rw [length_step]; omega)
    intro x hx p hp
    rw [length_step] at hx ⊢
    by_cases hxc : x = cur
    · rw [hxc, readN_step_cur _ _ hcur] at hp
      rcases mem_insertC hp with hp | hp
      · subst hp; simp
      · have := hc cur hcur _ hp; omega
    · by_cases hxn : x = h.length
      · rw [hxn, readN_step_new _ _ hcur] at hp
        have := hc a ha _ hp; omega
      · have hx' : x < h.length := by omega
        rw [readN_step_old _ _ hx' hxc] at hp
        have := hc x hx' _ hp; omega
  | case3 h cur ex c rest hna ih =>
    intro hc hcur
    have hred : putLoop h cur ex (c :: rest) =
        putLoop (writeN (h ++ [TrieNode.plain]) cur
          ⟨insertC c h.length (readN h cur).children,
            (readN h cur).is_value_node, (readN h cur).value⟩) h.length false rest := by
      cases hl : lookupC c (readN h cur).children with
      | none => cases ex <;> simp [putLoop, hl]
      | some a =>
        cases ex with
        | false => simp [putLoop, hl]
        | true => exact (hna a hl rfl).elim
    rw [hred]
    refine ih ?_ (by rw [length_step]; omega)
    intro x hx p hp
    rw [length_step] at hx ⊢
    by_cases hxc : x = cur
    · rw [hxc, readN_step_cur _ _ hcur] at hp
      rcases mem_insertC hp with hp | hp
      · subst hp; simp
      · have := hc cur hcur _ hp; omega
    · by_cases hxn : x = h.length
      · rw [hxn, readN_step_new _ _ hcur] at hp
        simp [TrieNode.plain] at hp
      · have hx' : x < h.length := by omega
        rw [readN_step_old _ _ hx' hxc] at hp
        have := hc x hx' _ hp; omega

/-! ## Lemmas about `cloneRoot`, `putFinish` and `triePut` -/

lemma cloneRoot_snd (h : Heap) (root : Option Nat) : (cloneRoot h root).2 = h.length := by
  cases root <;> rfl

lemma cloneRoot_len (h : Heap) (root : Option Nat) :
    (cloneRoot h root).1.length = h.length + 1 := by
  cases root <;> simp [cloneRoot]

lemma cloneRoot_get_lt (h : Heap) (root : Option Nat) {x : Nat} (hx : x < h.length) :
    (cloneRoot h root).1[x]? = h[x]? := by
  cases root <;> simp [cloneRoot, List.getElem?_append, hx]

lemma cloneRoot_closed (h : Heap) (root : Option Nat) (hc : HClosed h)
    (hroot : ∀ a, root = some a → a < h.length) : HClosed (cloneRoot h root).1 := by
  intro x hx p hp
  rw [cloneRoot_len] at hx ⊢
  by_cases hxn : x = h.length
  · subst hxn
    cases root with
    | none =>
      simp only [cloneRoot, readN_concat_len, TrieNode.plain] at hp
      simp at hp
    | some r =>
      simp only [cloneRoot, readN_concat_len] at hp
      have := hc r (hroot r rfl) _ hp; omega
  · have hx' : x < h.length := by omega
    have hrd : readN (cloneRoot h root).1 x = readN h x := by
      cases root <;> exact readN_append_lt _ hx'
    rw [hrd] at hp
    have := hc x hx' _ hp; omega

lemma cloneRoot_flag (h : Heap) (root : Option Nat)
    (hroot : ∀ a, root = some a → (readN h a).is_value_node = false) :
    (readN (cloneRoot h root).1 (cloneRoot h root).2).is_value_node = false := by
  cases root with
  | none => simp [cloneRoot, readN_concat_len, TrieNode.plain]
  | some r => simpa [cloneRoot, readN_concat_len] using hroot r rfl

lemma cloneRoot_flag_lt (h : Heap) (root : Option Nat) {x : Nat} (hx : x < h.length) :
    (readN (cloneRoot h root).1 x).is_value_node = (readN h x).is_value_node := by
  cases root <;> simp only [cloneRoot] <;> rw [readN_append_lt _ hx]

/-- Both branches of `putFinish` append a value node carrying `v` (whose
children depend on the branch) and redirect the last edge of `cur` to it. -/
lemma putFinish_spec (h : Heap) (cur : Nat) (ex : Bool) (c : Char) (v : TVal) :
    ∃ ch, putFinish h cur ex c v =
      writeN (h ++ [(⟨ch, true, some v⟩ : TrieNode)]) cur
        ⟨insertC c h.length (readN h cur).children,
          (readN h cur).is_value_node, (readN h cur).value⟩ := by
  cases hl : lookupC c (readN h cur).children with
  | none => cases ex <;> exact ⟨[], by simp [putFinish, hl]⟩
  | some a =>
    cases ex with
    | false => exact ⟨[], by simp [putFinish, hl]⟩
    | true => exact ⟨(readN h a).children, by simp [putFinish, hl]⟩

/-- Closedness is preserved by one path-copy step whose appended node has
valid children. -/
lemma step_closed {h : Heap} {cur : Nat} {nd : TrieNode} (c : Char)
    (hc : HClosed h) (hcur : cur < h.length)
    (hnd : ∀ p ∈ nd.children, p.2 < h.length) :
    HClosed (writeN (h ++ [nd]) cur
      ⟨insertC c h.length (readN h cur).children,
        (readN h cur).is_value_node, (readN h cur).value⟩) := by
  intro x hx p hp
  rw [length_step] at hx ⊢
  by_cases hxc : x = cur
  · rw [hxc, readN_step_cur _ _ hcur] at hp
    rcases mem_insertC hp with hp | hp
    · subst hp; simp
    · have := hc cur hcur _ hp; omega
  · by_cases hxn : x = h.length
    · rw [hxn, readN_step_new _ _ hcur] at hp
      have := hnd _ hp; omega
    · have hx' : x < h.length := by omega
      rw [readN_step_old _ _ hx' hxc] at hp
      have := hc x hx' _ hp; omega

lemma putFinish_closed (h : Heap) (cur : Nat) (ex : Bool) (c : Char) (v : TVal)
    (hc : HClosed h) (hcur : cur < h.length) : HClosed (putFinish h cur ex c v) := by
  cases hl : lookupC c (readN h cur).children with
  | none =>
    cases ex <;> (simp only [putFinish, hl]; exact step_closed c hc hcur (by simp))
  | some a =>
    cases ex with
    | false => simp only [putFinish, hl]; exact step_closed c hc hcur (by simp)
    | true =>
      simp only [putFinish, hl]
      have ha : a < h.length := hc cur hcur _ (lookupC_mem hl)
      exact step_closed c hc hcur (fun p hp => hc a ha _ hp)

/-- Decompose a non-empty list into its `dropLast` part and its last element,
in the forms the `Put`/`Remove` code uses. -/
lemma concat_decomp {l : List Char} (h : l ≠ []) :
    ∃ ks c, l = ks ++ [c] ∧ l.dropLast = ks ∧ l.getLast? = some c := by
  induction l with
  | nil => exact absurd rfl h
  | cons x xs ih =>
    cases xs with
    | nil => exact ⟨[], x, rfl, rfl, rfl⟩
    | cons y ys =>
      obtain ⟨ks, c, h1, h2, h3⟩ := ih (by simp)
      refine ⟨x :: ks, c, ?_, ?_, ?_⟩
      · rw [List.cons_append, ← h1]
      · rw [List.dropLast_cons_of_ne_nil (by simp), h2]
      · rw [List.getLast?_cons_cons, h3]

lemma triePut_root_eq (h : Heap) (root : Option Nat) (key : List Char) (v : TVal) :
    (triePut h root key v).2 = h.length := by
  cases hk : key.getLast? <;> simp [triePut, hk, cloneRoot_snd]

/-- `Put` never touches an address that existed before the call: every node of
the prior heap is bit-for-bit unchanged (the copy-on-write discipline). -/
lemma triePut_frame (h : Heap) (root : Option Nat) (key : List Char) (v : TVal) :
    ∀ x, x < h.length → (triePut h root key v).1[x]? = h[x]? := by
  intro x hx
  cases hk : key.getLast? with
  | none => simp only [triePut, hk]; exact cloneRoot_get_lt h root hx
  | some c =>
    simp only [triePut, hk]
    have hcs : (cloneRoot h root).2 = h.length := cloneRoot_snd h root
    have hclen : (cloneRoot h root).1.length = h.length + 1 := cloneRoot_len h root
    have hcurp : (cloneRoot h root).2 < (cloneRoot h root).1.length := by omega
    obtain ⟨hb1, hb2, hb3, hb4⟩ := putLoop_bounds key.dropLast _ _ true hcurp
    obtain ⟨ch, hpf⟩ := putFinish_spec
      (putLoop (cloneRoot h root).1 (cloneRoot h root).2 true key.dropLast).1
      (putLoop (cloneRoot h root).1 (cloneRoot h root).2 true key.dropLast).2.1
      (putLoop (cloneRoot h root).1 (cloneRoot h root).2 true key.dropLast).2.2 c v
    rw [hpf, get_step_old _ _ (by omega) (by omega), hb4 x (by omega) (by omega)]
    exact cloneRoot_get_lt h root hx

lemma triePut_len (h : Heap) (root : Option Nat) (key : List Char) (v : TVal) :
    h.length < (triePut h root key v).1.length := by
  cases hk : key.getLast? with
  | none => simp only [triePut, hk]; rw [cloneRoot_len]; omega
  | some c =>
    simp only [triePut, hk]
    have hcurp : (cloneRoot h root).2 < (cloneRoot h root).1.length := by
      rw [cloneRoot_snd, cloneRoot_len]; omega
    obtain ⟨hb1, _, _, _⟩ := putLoop_bounds key.dropLast _ _ true hcurp
    rw [cloneRoot_len] at hb1
    obtain ⟨ch, hpf⟩ := putFinish_spec
      (putLoop (cloneRoot h root).1 (cloneRoot h root).2 true key.dropLast).1
      (putLoop (cloneRoot h root).1 (cloneRoot h root).2 true key.dropLast).2.1
      (putLoop (cloneRoot h root).1 (cloneRoot h root).2 true key.dropLast).2.2 c v
    rw [hpf, length_step]
    omega

lemma triePut_root_lt (h : Heap) (root : Option Nat) (key : List Char) (v : TVal) :
    (triePut h root key v).2 < (triePut h root key v).1.length := by
  rw [triePut_root_eq]; exact triePut_len h root key v

lemma triePut_closed (h : Heap) (root : Option Nat) (key : List Char) (v : TVal)
    (hc : HClosed h) (hroot : ∀ a, root = some a → a < h.length) :
    HClosed (triePut h root key v).1 := by
  have hcl := cloneRoot_closed h root hc hroot
  cases hk : key.getLast? with
  | none => simp only [triePut, hk]; exact hcl
  | some c =>
    simp only [triePut, hk]
    have hcurp : (cloneRoot h root).2 < (cloneRoot h root).1.length := by
      rw [cloneRoot_snd, cloneRoot_len]; omega
    have hqc := putLoop_closed key.dropLast _ _ true hcl hcurp
    obtain ⟨_, _, hb3, _⟩ := putLoop_bounds key.dropLast _ _ true hcurp
    exact putFinish_closed _ _ _ c v hqc hb3

/-- The round-trip at the heart of `Put`: reading the key just written through
the new root yields the stored value (requested with the matching type tag). -/
lemma triePut_get (h : Heap) (root : Option Nat) (key : List Char) (v : TVal)
    (hk : key ≠ []) :
    getFrom (triePut h root key v).1 (triePut h root key v).2 v.tag key = some v.data := by
  obtain ⟨ks, c, hkey, hdl, hgl⟩ := concat_decomp hk
  simp only [triePut, hgl, hdl]
  have hcs : (cloneRoot h root).2 = h.length := cloneRoot_snd h root
  have hclen : (cloneRoot h root).1.length = h.length + 1 := cloneRoot_len h root
  have hcurp : (cloneRoot h root).2 < (cloneRoot h root).1.length := by omega
  obtain ⟨hb1, hb2, hb3, hb4⟩ := putLoop_bounds ks _ _ true hcurp
  obtain ⟨ch, hpf⟩ := putFinish_spec
    (putLoop (cloneRoot h root).1 (cloneRoot h root).2 true ks).1
    (putLoop (cloneRoot h root).1 (cloneRoot h root).2 true ks).2.1
    (putLoop (cloneRoot h root).1 (cloneRoot h root).2 true ks).2.2 c v
  rw [hpf]
  have hag : ∀ x, x < (putLoop (cloneRoot h root).1 (cloneRoot h root).2 true ks).1.length →
      x ≠ (putLoop (cloneRoot h root).1 (cloneRoot h root).2 true ks).2.1 →
      (writeN ((putLoop (cloneRoot h root).1 (cloneRoot h root).2 true ks).1 ++
          [(⟨ch, true, some v⟩ : TrieNode)])
        (putLoop (cloneRoot h root).1 (cloneRoot h root).2 true ks).2.1
        ⟨insertC c (putLoop (cloneRoot h root).1 (cloneRoot h root).2 true ks).1.length
            (readN (putLoop (cloneRoot h root).1 (cloneRoot h root).2 true ks).1
              (putLoop (cloneRoot h root).1 (cloneRoot h root).2 true ks).2.1).children,
          (readN (putLoop (cloneRoot h root).1 (cloneRoot h root).2 true ks).1
            (putLoop (cloneRoot h root).1 (cloneRoot h root).2 true ks).2.1).is_value_node,
          (readN (putLoop (cloneRoot h root).1 (cloneRoot h root).2 true ks).1
            (putLoop (cloneRoot h root).1 (cloneRoot h root).2 true ks).2.1).value⟩)[x]? =
        (putLoop (cloneRoot h root).1 (cloneRoot h root).2 true ks).1[x]? := by
    intro x hx hxc
    exact get_step_old _ _ hx hxc
  have hwalk := putLoop_walk ks _ _ true hcurp _ hag
  have hsplit : key = ks ++ [c] := hkey
  rw [hsplit, getFrom_append hwalk, getFrom_cons]
  rw [readN_step_cur _ _ hb3, lookupC_insertC_self]
  simp only [getFrom_nil, nodeCheck]
  rw [readN_step_new _ _ hb3]
  simp

lemma triePut_flag_lt (h : Heap) (root : Option Nat) (key : List Char) (v : TVal) :
    ∀ x, x < h.length →
      (readN (triePut h root key v).1 x).is_value_node = (readN h x).is_value_node := by
  intro x hx
  cases hk : key.getLast? with
  | none => simp only [triePut, hk]; exact cloneRoot_flag_lt h root hx
  | some c =>
    simp only [triePut, hk]
    have hcs : (cloneRoot h root).2 = h.length := cloneRoot_snd h root
    have hclen : (cloneRoot h root).1.length = h.length + 1 := cloneRoot_len h root
    have hcurp : (cloneRoot h root).2 < (cloneRoot h root).1.length := by omega
    obtain ⟨hb1, hb2, hb3, hb4⟩ := putLoop_bounds key.dropLast _ _ true hcurp
    obtain ⟨ch, hpf⟩ := putFinish_spec
      (putLoop (cloneRoot h root).1 (cloneRoot h root).2 true key.dropLast).1
      (putLoop (cloneRoot h root).1 (cloneRoot h root).2 true key.dropLast).2.1
      (putLoop (cloneRoot h root).1 (cloneRoot h root).2 true key.dropLast).2.2 c v
    rw [hpf, readN_step_old _ _ (by omega) (by omega)]
    rw [putLoop_flags key.dropLast _ _ true hcurp x (by omega)]
    exact cloneRoot_flag_lt h root hx

/-- The step write keeps the `is_value_node` flag of every pre-existing node
whose flag was `false` (the written node reuses the old node's flag). -/
lemma step_flag {h : Heap} {cur x : Nat} (nd : TrieNode) (c : Char)
    (hcur : cur < h.length) (hx : x < h.length)
    (hxf : (readN h x).is_value_node = false) :
    (readN (writeN (h ++ [nd]) cur
      ⟨insertC c h.length (readN h cur).children,
        (readN h cur).is_value_node, (readN h cur).value⟩) x).is_value_node = false := by
  by_cases hxc : x = cur
  · subst hxc
    rw [readN_step_cur _ _ hcur]
    exact hxf
  · rw [readN_step_old _ _ hx hxc]
    exact hxf

/-- The new root produced by `Put` is never a value node, provided the old
root was not one (the root clone keeps the flag, and the loop writes keep
every node's flag). -/
lemma triePut_root_flag (h : Heap) (root : Option Nat) (key : List Char) (v : TVal)
    (hroot : ∀ a, root = some a → (readN h a).is_value_node = false) :
    (readN (triePut h root key v).1 (triePut h root key v).2).is_value_node = false := by
  cases hk : key.getLast? with
  | none => simp only [triePut, hk]; exact cloneRoot_flag h root hroot
  | some c =>
    simp only [triePut, hk]
    have hcs : (cloneRoot h root).2 = h.length := cloneRoot_snd h root
    have hclen : (cloneRoot h root).1.length = h.length + 1 := cloneRoot_len h root
    have hcurp : (cloneRoot h root).2 < (cloneRoot h root).1.length := by omega
    obtain ⟨hb1, hb2, hb3, hb4⟩ := putLoop_bounds key.dropLast _ _ true hcurp
    obtain ⟨ch, hpf⟩ := putFinish_spec
      (putLoop (cloneRoot h root).1 (cloneRoot h root).2 true key.dropLast).1
      (putLoop (cloneRoot h root).1 (cloneRoot h root).2 true key.dropLast).2.1
      (putLoop (cloneRoot h root).1 (cloneRoot h root).2 true key.dropLast).2.2 c v
    rw [hpf]
    have hfl : (readN (putLoop (cloneRoot h root).1 (cloneRoot h root).2 true key.dropLast).1
        (cloneRoot h root).2).is_value_node = false := by
      rw [putLoop_flags key.dropLast _ _ true hcurp _ hcurp]
      exact cloneRoot_flag h root hroot
    exact step_flag _ c hb3 (by omega) hfl

/-! ## Lemmas about `removeLoop` and `trieRemove` -/

lemma removeLoop_bounds (ks : List Char) (h : Heap) (cur : Nat) :
    cur < h.length →
    ∀ q, removeLoop h cur ks = some q →
      h.length ≤ q.1.length ∧ cur ≤ q.2 ∧ q.2 < q.1.length ∧
      (∀ x, x < h.length → x ≠ cur → q.1[x]? = h[x]?) := by
  induction h, cur, ks using removeLoop.induct with
  | case1 h cur =>
    intro hcur q hq
    obtain rfl : (h, cur) = q := by simpa [removeLoop] using hq
    exact ⟨Nat.le_refl _, Nat.le_refl _, hcur, fun x _ _ => rfl⟩
  | case2 h cur c rest hl =>
    intro hcur q hq
    simp [removeLoop, hl] at hq
  | case3 h cur c rest b hl ih =>
    intro hcur q hq
    have hred : removeLoop h cur (c :: rest) =
        removeLoop (writeN (h ++ [readN h b]) cur
          ⟨insertC c h.length (readN h cur).children,
            (readN h cur).is_value_node, (readN h cur).value⟩) h.length rest := by
      simp [removeLoop, hl]
    rw [hred] at hq
    obtain ⟨ih1, ih2, ih3, ih4⟩ := ih (by rw [length_step]; omega) q hq
    rw [length_step] at ih1
    refine ⟨by omega, by omega, ih3, ?_⟩
    intro x hx hxc
    rw [ih4 x (by rw [length_step]; omega) (by omega)]
    exact get_step_old _ _ hx hxc

lemma removeLoop_flags (ks : List Char) (h : Heap) (cur : Nat) :
    cur < h.length →
    ∀ q, removeLoop h cur ks = some q →
      ∀ x, x < h.length →
        (readN q.1 x).is_value_node = (readN h x).is_value_node := by
  induction h, cur, ks using removeLoop.induct with
  | case1 h cur =>
    intro hcur q hq x hx
    obtain rfl : (h, cur) = q := by simpa [removeLoop] using hq
    rfl
  | case2 h cur c rest hl =>
    intro hcur q hq
    simp [removeLoop, hl] at hq
  | case3 h cur c rest b hl ih =>
    intro hcur q hq x hx
    have hred : removeLoop h cur (c :: rest) =
        removeLoop (writeN (h ++ [readN h b]) cur
          ⟨insertC c h.length (readN h cur).children,
            (readN h cur).is_value_node, (readN h cur).value⟩) h.length rest := by
      simp [removeLoop, hl]
    rw [hred] at hq
    rw [ih (by rw [length_step]; omega) q hq x (by rw [length_step]; omega)]
    by_cases hxc : x = cur
    · subst hxc; rw [readN_step_cur _ _ hcur]
    · rw [readN_step_old _ _ hx hxc]

lemma removeFinish_spec (h : Heap) (cur : Nat) (c : Char) :
    ∀ hf, removeFinish h cur c = some hf →
      ∃ a, lookupC c (readN h cur).children = some a ∧
        hf = writeN (h ++ [(⟨(readN h a).children, false, none⟩ : TrieNode)]) cur
          ⟨insertC c h.length (readN h cur).children,
            (readN h cur).is_value_node, (readN h cur).value⟩ := by
  intro hf hrf
  cases hl : lookupC c (readN h cur).children with
  | none => simp [removeFinish, hl] at hrf
  | some a =>
    refine ⟨a, rfl, ?_⟩
    simp only [removeFinish, hl, Option.some.injEq] at hrf
    exact hrf.symm

/-- `Remove` never touches an address that existed before the call. -/
lemma trieRemove_frame (h : Heap) (root : Option Nat) (key : List Char) :
    ∀ x, x < h.length → (trieRemove h root key).1[x]? = h[x]? := by
  intro x hx
  cases root with
  | none => rfl
  | some r =>
    cases hk : key.getLast? with
    | none => simp [trieRemove, hk]
    | some c =>
      cases hrl : removeLoop (h ++ [readN h r]) h.length key.dropLast with
      | none => simp [trieRemove, hk, hrl]
      | some q =>
        cases hrf : removeFinish q.1 q.2 c with
        | none => simp [trieRemove, hk, hrl, hrf]
        | some hf =>
          simp only [trieRemove, hk, hrl, hrf]
          obtain ⟨hb1, hb2, hb3, hb4⟩ :=
            removeLoop_bounds key.dropLast _ h.length (by simp) q hrl
          simp only [List.length_append, List.length_cons, List.length_nil] at hb1
          obtain ⟨a, hla, hfeq⟩ := removeFinish_spec q.1 q.2 c hf hrf
          rw [hfeq, get_step_old _ _ (by omega) (by omega),
            hb4 x (by simp; omega) (by omega)]
          simp [List.getElem?_append, hx]

/-- The root produced by `Remove` is never a value node when the input root
was not one. -/
lemma trieRemove_root_flag (h : Heap) (root : Option Nat) (key : List Char)
    (hroot : ∀ a, root = some a → (readN h a).is_value_node = false) :
    ∀ a, (trieRemove h root key).2.1 = some a →
      (readN (trieRemove h root key).1 a).is_value_node = false := by
  cases root with
  | none => intro a ha; simp [trieRemove] at ha
  | some r =>
    cases hk : key.getLast? with
    | none =>
      intro a ha
      simp only [trieRemove, hk] at ha ⊢
      cases ha
      exact hroot _ rfl
    | some c =>
      cases hrl : removeLoop (h ++ [readN h r]) h.length key.dropLast with
      | none =>
        intro a ha
        simp only [trieRemove, hk, hrl] at ha ⊢
        cases ha
        exact hroot _ rfl
      | some q =>
        cases hrf : removeFinish q.1 q.2 c with
        | none =>
          intro a ha
          simp only [trieRemove, hk, hrl, hrf] at ha ⊢
          cases ha
          exact hroot _ rfl
        | some hf =>
          intro a ha
          simp only [trieRemove, hk, hrl, hrf, Option.some.injEq] at ha ⊢
          obtain rfl : h.length = a := ha
          obtain ⟨hb1, hb2, hb3, hb4⟩ :=
            removeLoop_bounds key.dropLast _ h.length (by simp) q hrl
          simp only [List.length_append, List.length_cons, List.length_nil] at hb1
          obtain ⟨b, hlb, hfeq⟩ := removeFinish_spec q.1 q.2 c hf hrf
          rw [hfeq]
          have hfl : (readN q.1 h.length).is_value_node = false := by
            rw [removeLoop_flags key.dropLast _ h.length (by simp) q hrl h.length (by simp),
              readN_concat_len]
            exact hroot r rfl
          exact step_flag _ c hb3 (by omega) hfl

/-! ## Store-level lemmas -/

lemma storeWF_heap {s : TrieStore} (hwf : storeWF s = true) : wfHeap s.heap = true := by
  simp only [storeWF, Bool.and_eq_true] at hwf
  exact hwf.1.1

lemma storeWF_ne {s : TrieStore} (hwf : storeWF s = true) : s.snapshots ≠ [] := by
  simp only [storeWF, Bool.and_eq_true] at hwf
  simpa using hwf.1.2

lemma storeWF_roots {s : TrieStore} (hwf : storeWF s = true) :
    ∀ r ∈ s.snapshots, ∀ a, r = some a → a < s.heap.length := by
  simp only [storeWF, Bool.and_eq_true] at hwf
  intro r hr a ha
  have := List.all_eq_true.mp hwf.2 r hr
  subst ha
  simpa using this

lemma storeWF_latest {s : TrieStore} (hwf : storeWF s = true) :
    ∀ a, (s.snapshots.getLast?).getD none = some a → a < s.heap.length := by
  intro a ha
  cases hgl : s.snapshots.getLast? with
  | none => rw [hgl] at ha; simp at ha
  | some r =>
    rw [hgl] at ha
    simp only [Option.getD_some] at ha
    subst ha
    exact storeWF_roots hwf _ (List.mem_of_getLast?_eq_some hgl) a rfl

/-! ## The simulation lemma for `Remove`

`removeLoop` clones the path of `ks` starting from the already-cloned node
`cur` (a copy of the original node `b` of the untouched heap `h0`).  The lemma
tracks the copy trail: the loop succeeds exactly along a walkable path, the
final copy `q.2` reads the same node as the walk's landing node `b'`, nothing
below `h0` is written, and — for any "finished" heap `hf` that redirects the
last edge `c` of the landing copy to a plain replacement node `pn` — lookups
from the trail head agree with lookups from `b` in the old heap, except on the
keys that pass through the replaced edge. -/
lemma removeLoop_sim (h0 : Heap) (hc : HClosed h0) :
    ∀ (ks : List Char) (h : Heap) (cur b : Nat),
      b < h0.length →
      readN h cur = readN h0 b →
      h0.length ≤ h.length → cur < h.length → h0.length ≤ cur →
      (∀ x, x < h0.length → h[x]? = h0[x]?) →
      ∀ b', walk h0 b ks = (b', []) →
      ∃ q, removeLoop h cur ks = some q ∧
        b' < h0.length ∧
        h.length ≤ q.1.length ∧ cur ≤ q.2 ∧ q.2 < q.1.length ∧ h0.length ≤ q.2 ∧
        (∀ x, x < h.length → x ≠ cur → q.1[x]? = h[x]?) ∧
        readN q.1 q.2 = readN h0 b' ∧
        (∀ (c : Char) (pn a_old : Nat) (hf : Heap),
          lookupC c (readN h0 b').children = some a_old →
          q.1.length ≤ hf.length →
          (∀ x, x < q.1.length → x ≠ q.2 → hf[x]? = q.1[x]?) →
          readN hf q.2 = ⟨insertC c pn (readN h0 b').children,
            (readN h0 b').is_value_node, (readN h0 b').value⟩ →
          q.1.length ≤ pn →
          readN hf pn = ⟨(readN h0 a_old).children, false, none⟩ →
          (∀ T k', (∀ rest, k' ≠ ks ++ c :: rest) →
              getFrom hf cur T k' = getFrom h0 b T k') ∧
          (∀ T, getFrom hf cur T (ks ++ [c]) = none) ∧
          (∀ T rest, rest ≠ [] →
              getFrom hf cur T (ks ++ c :: rest) = getFrom h0 b T (ks ++ c :: rest))) := by
  intro ks
  induction ks with
  | nil =>
    intro h cur b hb hrd hlen hcur hge hag b' hw
    have hbb : b = b' := by simpa [walk] using hw
    subst hbb
    refine ⟨(h, cur), rfl, hb, Nat.le_refl _, Nat.le_refl _, hcur, hge,
      fun x _ _ => rfl, hrd, ?_⟩
    intro c pn a_old hf hla hflen hfag hfcur hpn hfpn
    dsimp only at hflen hfag hfcur hpn hfpn
    have ha_old : a_old < h0.length := hc b hb _ (lookupC_mem hla)
    have hagf : ∀ x, x < h0.length → hf[x]? = h0[x]? := by
      intro x hx
      rw [hfag x (by omega) (by omega)]
      exact hag x hx
    refine ⟨?_, ?_, ?_⟩
    · intro T k' hk'
      cases k' with
      | nil =>
        rw [getFrom_nil, getFrom_nil]
        exact nodeCheck_congr T (by simp [hfcur]) (by simp [hfcur])
      | cons c' rest' =>
        by_cases hcc : c' = c
        · subst hcc
          exact absurd rfl (hk' rest')
        · have hlk : lookupC c' (readN hf cur).children =
              lookupC c' (readN h0 b).children := by
            simp [hfcur, lookupC_insertC_ne c c' hcc]
          cases hl2 : lookupC c' (readN h0 b).children with
          | none => rw [getFrom_cons_none (hlk.trans hl2), getFrom_cons_none hl2]
          | some a2 =>
            have ha2 : a2 < h0.length := hc b hb _ (lookupC_mem hl2)
            rw [getFrom_cons_some (hlk.trans hl2), getFrom_cons_some hl2]
            exact getFrom_eq_of_agree hc hagf rest' a2 ha2 T
    · intro T
      have hlk : lookupC c (readN hf cur).children = some pn := by
        simp [hfcur, lookupC_insertC_self]
      rw [List.nil_append, getFrom_cons_some hlk, getFrom_nil]
      simp [nodeCheck, hfpn]
    · intro T rest hrest
      cases rest with
      | nil => exact absurd rfl hrest
      | cons c1 rest1 =>
        have hlk : lookupC c (readN hf cur).children = some pn := by
          simp [hfcur, lookupC_insertC_self]
        rw [List.nil_append, getFrom_cons_some hlk, getFrom_cons_some hla]
        have hl1 : lookupC c1 (readN hf pn).children =
            lookupC c1 (readN h0 a_old).children := by
          simp [hfpn]
        cases hl2 : lookupC c1 (readN h0 a_old).children with
        | none => rw [getFrom_cons_none (hl1.trans hl2), getFrom_cons_none hl2]
        | some a2 =>
          have ha2 : a2 < h0.length := hc a_old ha_old _ (lookupC_mem hl2)
          rw [getFrom_cons_some (hl1.trans hl2), getFrom_cons_some hl2]
          exact getFrom_eq_of_agree hc hagf rest1 a2 ha2 T
  | cons c0 ks1 ih =>
    intro h cur b hb hrd hlen hcur hge hag b' hw
    cases hl0 : lookupC c0 (readN h0 b).children with
    | none => simp [walk, hl0] at hw
    | some b1 =>
      simp only [walk, hl0] at hw
      have hb1 : b1 < h0.length := hc b hb _ (lookupC_mem hl0)
      have hlcur : lookupC c0 (readN h cur).children = some b1 := by
        rw [hrd]; exact hl0
      have hred : removeLoop h cur (c0 :: ks1) =
          removeLoop (writeN (h ++ [readN h b1]) cur
            ⟨insertC c0 h.length (readN h cur).children,
              (readN h cur).is_value_node, (readN h cur).value⟩) h.length ks1 := by
        simp [removeLoop, hlcur]
      have hrdb1 : readN h b1 = readN h0 b1 := readN_eq_of_agree hag hb1
      have hrd2 : readN (writeN (h ++ [readN h b1]) cur
          ⟨insertC c0 h.length (readN h cur).children,
            (readN h cur).is_value_node, (readN h cur).value⟩) h.length = readN h0 b1 := by
        rw [readN_step_new _ _ hcur]; exact hrdb1
      have hag2 : ∀ x, x < h0.length →
          (writeN (h ++ [readN h b1]) cur
            ⟨insertC c0 h.length (readN h cur).children,
              (readN h cur).is_value_node, (readN h cur).value⟩)[x]? = h0[x]? := by
        intro x hx
        rw [get_step_old _ _ (by omega) (by omega)]
        exact hag x hx
      obtain ⟨q, hql, hb'lt, hqlen, hqcur, hqlt, hqge, hqfr, hqrd, hqhf⟩ :=
        ih (writeN (h ++ [readN h b1]) cur
            ⟨insertC c0 h.length (readN h cur).children,
              (readN h cur).is_value_node, (readN h cur).value⟩) h.length b1
          hb1 hrd2 (by rw [length_step]; omega) (by rw [length_step]; omega)
          (by omega) hag2 b' hw
      rw [length_step] at hqlen
      refine ⟨q, by rw [hred]; exact hql, hb'lt, by omega, by omega, hqlt, by omega,
        ?_, hqrd, ?_⟩
      · intro x hx hxc
        rw [hqfr x (by rw [length_step]; omega) (by omega)]
        exact get_step_old _ _ hx hxc
      · intro c pn a_old hf hla hflen hfag hfcur hpn hfpn
        obtain ⟨A1, A2, A3⟩ := hqhf c pn a_old hf hla hflen hfag hfcur hpn hfpn
        have hfcur0 : readN hf cur = ⟨insertC c0 h.length (readN h0 b).children,
            (readN h0 b).is_value_node, (readN h0 b).value⟩ := by
          have h1 := hfag cur (by omega) (by omega)
          rw [hqfr cur (by rw [length_step]; omega) (by omega),
            get_step_cur _ _ hcur, hrd] at h1
          simp [readN, h1]
        have hagf : ∀ x, x < h0.length → hf[x]? = h0[x]? := by
          intro x hx
          rw [hfag x (by omega) (by omega),
            hqfr x (by rw [length_step]; omega) (by omega),
            get_step_old _ _ (by omega) (by omega)]
          exact hag x hx
        refine ⟨?_, ?_, ?_⟩
        · intro T k' hk'
          cases k' with
          | nil =>
            rw [getFrom_nil, getFrom_nil]
            exact nodeCheck_congr T (by simp [hfcur0]) (by simp [hfcur0])
          | cons c' rest' =>
            by_cases hcc : c' = c0
            · subst hcc
              have hlk : lookupC c' (readN hf cur).children = some h.length := by
                simp [hfcur0, lookupC_insertC_self]
              rw [getFrom_cons_some hlk, getFrom_cons_some hl0]
              refine A1 T rest' (fun rest hEq => ?_)
              exact hk' rest (by rw [hEq]; rfl)
            · have hlk : lookupC c' (readN hf cur).children =
                  lookupC c' (readN h0 b).children := by
                simp [hfcur0, lookupC_insertC_ne c0 c' hcc]
              cases hl2 : lookupC c' (readN h0 b).children with
              | none => rw [getFrom_cons_none (hlk.trans hl2), getFrom_cons_none hl2]
              | some a2 =>
                have ha2 : a2 < h0.length := hc b hb _ (lookupC_mem hl2)
                rw [getFrom_cons_some (hlk.trans hl2), getFrom_cons_some hl2]
                exact getFrom_eq_of_agree hc hagf rest' a2 ha2 T
        · intro T
          have hlk : lookupC c0 (readN hf cur).children = some h.length := by
            simp [hfcur0, lookupC_insertC_self]
          rw [show ((c0 :: ks1) ++ [c] : List Char) = c0 :: (ks1 ++ [c]) from rfl,
            getFrom_cons_some hlk]
          exact A2 T
        · intro T rest hrest
          have hlk : lookupC c0 (readN hf cur).children = some h.length := by
            simp [hfcur0, lookupC_insertC_self]
          rw [show ((c0 :: ks1) ++ c :: rest : List Char) = c0 :: (ks1 ++ c :: rest) from rfl,
            getFrom_cons_some hlk, getFrom_cons_some hl0]
          exact A3 T rest hrest

/-- Full behaviour of `Remove` on a present key: the key itself becomes
not-found (for every requested type), and every other key reads exactly as
before — in particular keys continuing through the replaced node, whose
children are kept. -/
lemma trieRemove_get_spec (h : Heap) (r : Nat) (key : List Char)
    (hc : HClosed h) (hr : r < h.length) (hk : key ≠ [])
    (T0 d0 : Nat) (hpres : getFrom h r T0 key = some d0) :
    (∀ T, trieGet (trieRemove h (some r) key).1 (trieRemove h (some r) key).2.1 T key = none) ∧
    (∀ k' T, k' ≠ key →
      trieGet (trieRemove h (some r) key).1 (trieRemove h (some r) key).2.1 T k' =
        trieGet h (some r) T k') := by
  obtain ⟨ks, c, hkey, hdl, hgl⟩ := concat_decomp hk
  -- the walk over the present key lands with nothing left over
  have hwkey : ∃ L, walk h r key = (L, []) := by
    cases hwk : walk h r key with
    | mk L rem =>
      cases rem with
      | nil => exact ⟨L, rfl⟩
      | cons c1 r1 =>
        simp only [getFrom, hwk] at hpres
        exact Option.noConfusion hpres
  obtain ⟨L, hwL⟩ := hwkey
  have hW := walk_append h r ks [c]
  rw [← hkey, hwL] at hW
  by_cases hp2 : (walk h r ks).2 = []
  · rw [if_pos hp2] at hW
    have hwks : walk h r ks = ((walk h r ks).1, []) := by rw [← hp2]
    have hb'lt : (walk h r ks).1 < h.length := walk_lt_of_closed hc ks r hr
    -- the last edge is present
    obtain ⟨a_old, hll⟩ : ∃ a_old,
        lookupC c (readN h (walk h r ks).1).children = some a_old := by
      cases hll : lookupC c (readN h (walk h r ks).1).children with
      | none => rw [walk, hll] at hW; simp at hW
      | some a2 => exact ⟨a2, rfl⟩
    have ha_old : a_old < h.length := hc _ hb'lt _ (lookupC_mem hll)
    -- run the simulation from the cloned root
    obtain ⟨q, hql, hb'lt2, hqlen, hqcur, hqlt, hqge, hqfr, hqrd, hqhf⟩ :=
      removeLoop_sim h hc ks (h ++ [readN h r]) h.length r hr
        (readN_concat_len h _) (by simp) (by simp) (Nat.le_refl _)
        (fun x hx => by simp [List.getElem?_append, hx]) (walk h r ks).1 hwks
    simp only [List.length_append, List.length_cons, List.length_nil] at hqlen
    -- the finish step fires
    have hlq : lookupC c (readN q.1 q.2).children = some a_old := by
      rw [hqrd]; exact hll
    have hres : trieRemove h (some r) key =
        (writeN (q.1 ++ [(⟨(readN q.1 a_old).children, false, none⟩ : TrieNode)]) q.2
          ⟨insertC c q.1.length (readN q.1 q.2).children,
            (readN q.1 q.2).is_value_node, (readN q.1 q.2).value⟩,
         some h.length, true) := by
      simp [trieRemove, hgl, hdl, hql, removeFinish, hlq]
    -- read the original sibling node through the trail frame
    have hrd_a_old : readN q.1 a_old = readN h a_old := by
      have := hqfr a_old (by simp; omega) (by omega)
      simp only [List.getElem?_append, ha_old, if_pos ha_old] at this
      simp [readN, this]
    -- hypotheses of the simulation's finished-heap clause
    obtain ⟨A1, A2, A3⟩ := hqhf c q.1.length a_old
      (writeN (q.1 ++ [(⟨(readN q.1 a_old).children, false, none⟩ : TrieNode)]) q.2
        ⟨insertC c q.1.length (readN q.1 q.2).children,
          (readN q.1 q.2).is_value_node, (readN q.1 q.2).value⟩)
      hll (by rw [length_step]; omega)
      (fun x hx hxc => get_step_old _ _ hx hxc)
      (by rw [readN_step_cur _ _ hqlt, hqrd])
      (Nat.le_refl _)
      (by rw [readN_step_new _ _ hqlt, hrd_a_old])
    constructor
    · intro T
      rw [hres]
      simp only [trieGet]
      rw [hkey]
      exact A2 T
    · intro k' T hk'
      rw [hres]
      simp only [trieGet]
      by_cases hpre : ∃ rest, k' = ks ++ c :: rest
      · obtain ⟨rest, rfl⟩ := hpre
        have hrest : rest ≠ [] := by
          intro hr0
          subst hr0
          exact hk' (by rw [hkey])
        exact A3 T rest hrest
      · push_neg at hpre
        exact A1 T k' hpre
  · rw [if_neg hp2] at hW
    have : ([] : List Char) = (walk h r ks).2 ++ [c] := congrArg Prod.snd hW
    simp at this

lemma wfHeap_of_closed {h : Heap} (hc : HClosed h) : wfHeap h = true := by
  rw [wfHeap, List.all_eq_true]
  intro nd hnd
  rw [List.all_eq_true]
  intro p hp
  obtain ⟨i, hi, hie⟩ := List.getElem_of_mem hnd
  have hrd : readN h i = nd := by
    simp [readN, List.getElem?_eq_getElem hi, hie]
  simpa using hc i hi p (hrd ▸ hp)

lemma store_put_ver (s : TrieStore) (key : List Char) (v : TVal) :
    (s.Put key v).2 = s.snapshots.length := by
  simp [TrieStore.Put]

lemma store_put_snaps (s : TrieStore) (key : List Char) (v : TVal) :
    (s.Put key v).1.snapshots = s.snapshots ++ [some (triePut s.heap
      ((s.snapshots.getLast?).getD none) key v).2] := rfl

/-- One `TrieStore::Put`: the fresh version reads back the stored value,
well-formedness is preserved, and every pre-existing version reads exactly as
before the call. -/
lemma store_put_get_latest (s : TrieStore) (key : List Char) (v : TVal)
    (hwf : storeWF s = true) (hk : key ≠ []) :
    TrieStore.Get (s.Put key v).1 key (some (s.Put key v).2) v.tag = some v.data ∧
    storeWF (s.Put key v).1 = true ∧
    (∀ ver T k, ver < s.snapshots.length →
      TrieStore.Get (s.Put key v).1 k (some ver) T = TrieStore.Get s k (some ver) T) := by
  have hc : HClosed s.heap := wfHeap_closed (storeWF_heap hwf)
  have hcl' := triePut_closed s.heap ((s.snapshots.getLast?).getD none) key v
    hc (storeWF_latest hwf)
  have hlenp := triePut_len s.heap ((s.snapshots.getLast?).getD none) key v
  refine ⟨?_, ?_, ?_⟩
  · simp only [TrieStore.Put, TrieStore.Get, List.length_append, List.length_cons,
      List.length_nil]
    rw [if_pos (by omega)]
    have hidx : (s.snapshots ++ [some (triePut s.heap
        ((s.snapshots.getLast?).getD none) key v).2])[s.snapshots.length + 1 - 1]? =
        some (some (triePut s.heap ((s.snapshots.getLast?).getD none) key v).2) := by
      have : s.snapshots.length + 1 - 1 = s.snapshots.length := by omega
      rw [this]
      exact List.getElem?_concat_length _ _
    rw [hidx]
    simp only [Option.getD_some, trieGet]
    exact triePut_get s.heap _ key v hk
  · simp only [storeWF, Bool.and_eq_true, List.all_eq_true]
    refine ⟨⟨wfHeap_of_closed hcl', ?_⟩, ?_⟩
    · simp [TrieStore.Put]
    · intro r hr
      simp only [TrieStore.Put] at hr
      rcases List.mem_append.mp hr with hr | hr
      · cases r with
        | none => rfl
        | some a =>
          have := storeWF_roots hwf _ hr a rfl
          simp only [TrieStore.Put]
          simp only [decide_eq_true_eq]
          omega
      · simp only [List.mem_singleton] at hr
        subst hr
        simp only [TrieStore.Put]
        simp only [decide_eq_true_eq]
        exact triePut_root_lt _ _ _ _
  · intro ver T k hver
    simp only [TrieStore.Put, TrieStore.Get, List.length_append, List.length_cons,
      List.length_nil]
    rw [if_pos (by omega), if_pos hver]
    rw [List.getElem?_append, if_pos hver]
    cases hsv : s.snapshots[ver]? with
    | none =>
      have := List.getElem?_eq_none_iff.mp hsv
      omega
    | some root =>
      cases root with
      | none => rfl
      | some a =>
        simp only [Option.getD_some, trieGet]
        have ha : a < s.heap.length :=
          storeWF_roots hwf _ (List.getElem?_mem hsv) a rfl
        exact getFrom_eq_of_agree hc
          (triePut_frame s.heap ((s.snapshots.getLast?).getD none) key v) k a ha T

lemma getFrom_eq_specGetNode (h : Heap) (T : Nat) :
    ∀ (key : List Char) (a : Nat), getFrom h a T key = specGetNode h T a key := by
  intro key
  induction key with
  | nil =>
    intro a
    rw [getFrom_nil]
    cases hiv : (readN h a).is_value_node <;> cases hv : (readN h a).value <;>
      simp [nodeCheck, specGetNode, hiv, hv]
  | cons c rest ih =>
    intro a
    rw [getFrom_cons]
    simp only [specGetNode]
    cases hl : lookupC c (readN h a).children with
    | none => rfl
    | some b => exact ih b

lemma built_root_flag : ∀ (h : Heap) (root : Option Nat), Built h root →
    ∀ a, root = some a → (readN h a).is_value_node = false := by
  intro h root hb
  induction hb with
  | base h => intro a ha; exact Option.noConfusion ha
  | put h root key v hbuilt hk ih =>
    intro a ha
    obtain rfl : (triePut h root key v).2 = a := by injection ha
    exact triePut_root_flag h root key v ih
  | remove h root key hbuilt hk ih =>
    exact trieRemove_root_flag h root key ih

/-! ## The claims -/

/-- Claim C1 (code bug): the claim states that `VersionedStore::Remove` of a
key absent from the latest snapshot appends no snapshot and leaves
`LatestVersion()` unchanged — as the source's own comments state ("if the key
does not exist, version number should not be increased").  The code violates
this: `Trie::Remove` replaces the node at the key's path without checking that
it is a value node, so removing a key that is only a proper prefix of a stored
key (here `"a"` with only `"ab"` stored) yields a trie with the `change` flag
set, and `TrieStore::Remove` appends a snapshot and returns the advanced
version.  This theorem evaluates the model at that failing input: `"a"` is
absent (first conjunct), the latest version is 1, yet `Remove("a")` returns 2
and history grows to 3.  A key whose path is entirely missing (`"c"`) does
behave as claimed, returning 1. -/
theorem c1_remove_of_absent_key_advances_version :
    TrieStore.Get (TrieStore.Put TrieStore.init (['a', 'b']) ⟨0, 1⟩).1 (['a']) none 0 = none ∧
    TrieStore.get_version (TrieStore.Put TrieStore.init (['a', 'b']) ⟨0, 1⟩).1 = 1 ∧
    (TrieStore.Remove (TrieStore.Put TrieStore.init (['a', 'b']) ⟨0, 1⟩).1 (['a'])).2 = 2 ∧
    ((TrieStore.Remove (TrieStore.Put TrieStore.init (['a', 'b']) ⟨0, 1⟩).1
        (['a'])).1).snapshots.length = 3 ∧
    (TrieStore.Remove (TrieStore.Put TrieStore.init (['a', 'b']) ⟨0, 1⟩).1 (['c'])).2 = 1 := by
  decide

/-- Claim C2: `Put` and `Remove` leave the receiver observationally unchanged —
every key/value pair retrievable through the old root before the operation is
retrievable, with the same value, through the old root in the heap the
operation produces (the copy-on-write discipline never mutates a published
node). -/
theorem c2_put_remove_leave_receiver_unchanged (h : Heap) (root : Option Nat)
    (key : List Char) (v : TVal) (hwf : wfHeap h = true)
    (hroot : ∀ a, root = some a → a < h.length) (_hk : key ≠ []) :
    (∀ T k', trieGet (triePut h root key v).1 root T k' = trieGet h root T k') ∧
    (∀ T k', trieGet (trieRemove h root key).1 root T k' = trieGet h root T k') := by
  have hc := wfHeap_closed hwf
  constructor
  · intro T k'
    cases root with
    | none => rfl
    | some r =>
      simp only [trieGet]
      exact getFrom_eq_of_agree hc
        (fun x hx => triePut_frame h (some r) key v x hx) k' r (hroot r rfl) T
  · intro T k'
    cases root with
    | none => rfl
    | some r =>
      simp only [trieGet]
      exact getFrom_eq_of_agree hc
        (fun x hx => trieRemove_frame h (some r) key x hx) k' r (hroot r rfl) T

/-- Witness for C2 at a concrete input: a trie holding `"a" ↦ 1`; putting
`"b" ↦ 2` leaves the old root's view of `"a"` unchanged. -/
theorem c2_witness :
    trieGet (triePut (triePut [] none (['a']) ⟨0, 1⟩).1
        (some (triePut [] none (['a']) ⟨0, 1⟩).2) (['b']) ⟨0, 2⟩).1
      (some (triePut [] none (['a']) ⟨0, 1⟩).2) 0 (['a']) =
    trieGet (triePut [] none (['a']) ⟨0, 1⟩).1
      (some (triePut [] none (['a']) ⟨0, 1⟩).2) 0 (['a']) :=
  (c2_put_remove_leave_receiver_unchanged
    (triePut [] none (['a']) ⟨0, 1⟩).1 (some (triePut [] none (['a']) ⟨0, 1⟩).2)
    (['b']) ⟨0, 2⟩ (by decide) (by intro a ha; cases ha; decide) (by decide)).1 0 (['a'])

/-- Claim C3: `Trie::Get<T>` returns not-found exactly when the root is empty,
some character of the key has no matching child edge, the node reached after
consuming the key is not terminal, or the stored value's runtime type is not
exactly `T`; in the remaining case it returns the stored value.  Stated as the
equality of the code's lookup with `specGet`, the direct transcription of that
spec sentence. -/
theorem c3_get_matches_spec (h : Heap) (root : Option Nat) (T : Nat) (key : List Char) :
    trieGet h root T key = specGet h root T key := by
  cases root with
  | none => rfl
  | some a =>
    simp only [trieGet, specGet]
    exact getFrom_eq_specGetNode h T key a

/-- Claim C4: round-trip — `t.Put(k, v).Get<T>(k)` returns `v` for every trie,
non-empty key and tagged value. -/
theorem c4_put_get_roundtrip (h : Heap) (root : Option Nat) (key : List Char)
    (tg d : Nat) (hk : key ≠ []) :
    trieGet (triePut h root key ⟨tg, d⟩).1 (some (triePut h root key ⟨tg, d⟩).2)
      tg key = some d := by
  simpa [trieGet] using triePut_get h root key ⟨tg, d⟩ hk

/-- Witness for C4 at a concrete input. -/
theorem c4_witness :
    trieGet (triePut [] none (['a', 'b']) ⟨3, 7⟩).1
      (some (triePut [] none (['a', 'b']) ⟨3, 7⟩).2) 3 (['a', 'b']) = some 7 :=
  c4_put_get_roundtrip [] none (['a', 'b']) 3 7 (by decide)

/-- Claim C5: removing a present key makes that key not-found for every
requested type, while every other key (including keys extending the removed
one through the kept subtree) reads exactly as before. -/
theorem c5_remove_present_key (h : Heap) (r : Nat) (key : List Char)
    (hwf : wfHeap h = true) (hr : r < h.length) (hk : key ≠ [])
    (hpres : ∃ T0 d0, trieGet h (some r) T0 key = some d0) :
    (∀ T, trieGet (trieRemove h (some r) key).1 (trieRemove h (some r) key).2.1 T key = none) ∧
    (∀ k' T, k' ≠ key →
      trieGet (trieRemove h (some r) key).1 (trieRemove h (some r) key).2.1 T k' =
        trieGet h (some r) T k') := by
  obtain ⟨T0, d0, hp⟩ := hpres
  exact trieRemove_get_spec h r key (wfHeap_closed hwf) hr hk T0 d0 hp

/-- Witness for C5 at a concrete input: removing the present key `"a"` makes
it not-found. -/
theorem c5_witness :
    trieGet (trieRemove (triePut [] none (['a']) ⟨0, 7⟩).1
        (some (triePut [] none (['a']) ⟨0, 7⟩).2) (['a'])).1
      (trieRemove (triePut [] none (['a']) ⟨0, 7⟩).1
        (some (triePut [] none (['a']) ⟨0, 7⟩).2) (['a'])).2.1 0 (['a']) = none :=
  (c5_remove_present_key (triePut [] none (['a']) ⟨0, 7⟩).1
    (triePut [] none (['a']) ⟨0, 7⟩).2 (['a'])
    (by decide) (by decide) (by decide) ⟨0, 7, by decide⟩).1 0

/-- Claim C6: version isolation — after `v1 = store.Put(k, x)` then
`v2 = store.Put(k, y)`, reading `k` at version `v1` still yields `x` while
version `v2` yields `y`. -/
theorem c6_version_isolation (s : TrieStore) (key : List Char) (T x y : Nat)
    (hwf : storeWF s = true) (hk : key ≠ []) :
    TrieStore.Get ((s.Put key ⟨T, x⟩).1.Put key ⟨T, y⟩).1 key
        (some (s.Put key ⟨T, x⟩).2) T = some x ∧
    TrieStore.Get ((s.Put key ⟨T, x⟩).1.Put key ⟨T, y⟩).1 key
        (some ((s.Put key ⟨T, x⟩).1.Put key ⟨T, y⟩).2) T = some y := by
  obtain ⟨G1, W1, P1⟩ := store_put_get_latest s key ⟨T, x⟩ hwf hk
  obtain ⟨G2, W2, P2⟩ := store_put_get_latest (s.Put key ⟨T, x⟩).1 key ⟨T, y⟩ W1 hk
  constructor
  · have hv1 : (s.Put key ⟨T, x⟩).2 < (s.Put key ⟨T, x⟩).1.snapshots.length := by
      rw [store_put_ver, store_put_snaps]
      simp
    rw [P2 _ T key hv1]
    exact G1
  · exact G2

/-- Witness for C6 at a concrete input: the empty store, `Put("a",1)` then
`Put("a",2)`. -/
theorem c6_witness :
    TrieStore.Get ((TrieStore.init.Put (['a']) ⟨0, 1⟩).1.Put (['a']) ⟨0, 2⟩).1 (['a'])
        (some (TrieStore.init.Put (['a']) ⟨0, 1⟩).2) 0 = some 1 ∧
    TrieStore.Get ((TrieStore.init.Put (['a']) ⟨0, 1⟩).1.Put (['a']) ⟨0, 2⟩).1 (['a'])
        (some ((TrieStore.init.Put (['a']) ⟨0, 1⟩).1.Put (['a']) ⟨0, 2⟩).2) 0 = some 2 :=
  c6_version_isolation TrieStore.init (['a']) 0 1 2 (by decide) (by decide)

/-- Claim C7: a `Get` with an explicit version at or beyond the history length
returns not-found (there is no error channel in the model, mirroring the
no-exception contract). -/
theorem c7_out_of_range_version_not_found (s : TrieStore) (key : List Char)
    (T ver : Nat) (hver : s.snapshots.length ≤ ver) :
    s.Get key (some ver) T = none := by
  simp only [TrieStore.Get]
  rw [if_neg (by omega)]

/-- Witness for C7 at a concrete input. -/
theorem c7_witness : TrieStore.Get TrieStore.init (['a']) (some 5) 0 = none :=
  c7_out_of_range_version_not_found TrieStore.init (['a']) 0 5 (by decide)

/-- Claim C8: every `Put` appends exactly one snapshot, returns the index of
the appended snapshot, which is the pre-call `LatestVersion()` plus one, and
`get_version` is always `N - 1` for history length `N`. -/
theorem c8_put_appends_one_snapshot (s : TrieStore) (key : List Char) (v : TVal)
    (hne : s.snapshots ≠ []) :
    (s.Put key v).1.snapshots.length = s.snapshots.length + 1 ∧
    (s.Put key v).2 = (s.Put key v).1.snapshots.length - 1 ∧
    (s.Put key v).2 = s.get_version + 1 ∧
    s.get_version = s.snapshots.length - 1 := by
  have hL : 0 < s.snapshots.length := List.length_pos.mpr hne
  refine ⟨by simp [TrieStore.Put], by simp [TrieStore.Put], ?_, rfl⟩
  simp only [TrieStore.Put, TrieStore.get_version, List.length_append,
    List.length_cons, List.length_nil]
  omega

/-- Witness for C8 at a concrete input. -/
theorem c8_witness :
    (TrieStore.init.Put (['a']) ⟨0, 1⟩).1.snapshots.length =
        TrieStore.init.snapshots.length + 1 ∧
    (TrieStore.init.Put (['a']) ⟨0, 1⟩).2 =
        (TrieStore.init.Put (['a']) ⟨0, 1⟩).1.snapshots.length - 1 ∧
    (TrieStore.init.Put (['a']) ⟨0, 1⟩).2 = TrieStore.init.get_version + 1 ∧
    TrieStore.init.get_version = TrieStore.init.snapshots.length - 1 :=
  c8_put_appends_one_snapshot TrieStore.init (['a']) ⟨0, 1⟩ (by decide)

/-- Claim C10: on every trie built from the empty trie by `Put` / `Remove`
with non-empty keys, the root is never a value-carrying node, and therefore
`Get<T>("")` returns not-found for every `T` (also on the empty trie). -/
theorem c10_root_never_value_node (h : Heap) (root : Option Nat) (hb : Built h root) :
    (∀ a, root = some a → (readN h a).is_value_node = false) ∧
    (∀ T, trieGet h root T [] = none) := by
  have hfl := built_root_flag h root hb
  refine ⟨hfl, ?_⟩
  intro T
  cases root with
  | none => rfl
  | some a => simp [trieGet, getFrom_nil, nodeCheck, hfl a rfl]

/-- Witness for C10 at a concrete input: the trie built by one `Put`. -/
theorem c10_witness :
    trieGet (triePut [] none (['a']) ⟨0, 5⟩).1
      (some (triePut [] none (['a']) ⟨0, 5⟩).2) 7 [] = none :=
  (c10_root_never_value_node _ _
    (Built.put [] none (['a']) ⟨0, 5⟩ (Built.base []) (by decide))).2 7

end Sjtu
